import Mathlib

/-!
BlockWallet — shallow embedding of the ledger core

This file embeds the transaction / block / blockchain core of the
BlockWallet repository (`transaction.py`, `blockchain.py`) in Lean 4 and
proves the specification claims about it.

Modelling conventions:

* Python `float` amounts, fees and timestamps are modelled as rationals
  (`ℚ`); arithmetic is exact.
* Python objects are mutable and shared by reference: the same
  `Transaction` object is referenced from `Blockchain.pending_transactions`,
  from `TransactionPool.transactions` and from the transaction list of a
  mined `Block`.  To capture this the embedding uses an explicit heap
  (`TxStore`, a list of transactions) and represents every reference to a
  transaction as an index (`TxRef`) into that heap.  In-place mutation
  (`tx.status = "confirmed"`) becomes an update of the heap, visible
  through every reference, in particular through the transaction lists of
  already-mined blocks.
* The SHA-256-over-JSON digest used by `Block.calculate_hash` is an
  external primitive; it is modelled as an arbitrary function
  `H : BlockData → String` of exactly the data the Python code serializes
  (index, timestamp, the transactions' dicts, previous_hash, nonce).
* The unbounded `while` loop of `Block.mine_block` is modelled with
  explicit fuel; `none` means the loop has not terminated within the fuel.
* Python `raise` is modelled with `Except`; each operation returns the
  object state at the moment control leaves it, so that atomicity-on-error
  is a provable property rather than an artefact of the encoding.  The
  Python code wraps every failure message in prose
  (`"Failed to add transaction: ..."`); the embedding keeps the failure
  *kind* of each `raise` site as a constructor of `TxError` instead of the
  wrapped message string.
* Calls to `time.time()` are nondeterministic inputs; they are passed as
  explicit arguments (`timestamp`, `rewardTime`, `blockTime`,
  `clockSeconds`).
* The signing primitive (`CryptoUtils.sign_message`, delegating to
  python-ecdsa's `SigningKey.sign`) draws a fresh random nonce on every
  call; that per-call entropy draw is likewise an explicit argument of
  `sign_transaction`, so repeated signing with different draws can yield
  different signatures, as in the library.
-/

namespace BlockWallet

/-- A transaction record (`Transaction.__init__` in `transaction.py`).
`transaction_id` and `signature` start as `None` (here `none`); `status`
starts as `"pending"`. -/
structure Transaction where
  sender_address : String
  recipient_address : String
  amount : ℚ
  fee : ℚ
  message : String
  timestamp : ℚ
  transaction_id : Option String
  signature : Option String
  status : String
deriving Repr, DecidableEq

/-- Python truthiness of an optional string: `None` and `""` are falsy. -/
def optStrFalsy : Option String → Bool
  | none => true
  | some s => s == ""

/-- Embeds `Transaction.is_valid` from `transaction.py`: the structural checks, in
source order, with the source's messages. -/
def Transaction.is_valid (tx : Transaction) : Bool × String :=
  if tx.sender_address == "" || tx.recipient_address == "" then
    (false, "Invalid sender or recipient address")
  else if tx.amount ≤ 0 then
    (false, "Amount must be positive")
  else if tx.fee < 0 then
    (false, "Fee cannot be negative")
  else if optStrFalsy tx.signature then
    (false, "Transaction not signed")
  else if optStrFalsy tx.transaction_id then
    (false, "Invalid transaction ID")
  else if tx.sender_address == tx.recipient_address then
    (false, "Sender and recipient cannot be the same")
  else
    (true, "Transaction is valid")

/-- Reference to a transaction object: an index into the heap. -/
abbrev TxRef := Nat

/-- Value returned when dereferencing an out-of-range index; no operation
of the embedding ever creates such a dangling reference. -/
def defaultTransaction : Transaction :=
  { sender_address := "", recipient_address := "", amount := 0, fee := 0,
    message := "", timestamp := 0, transaction_id := none, signature := none,
    status := "pending" }

/-- The heap of transaction objects.  Python object identity becomes the
index of the object in this list. -/
structure TxStore where
  txs : List Transaction
deriving Repr, DecidableEq

/-- Dereference a transaction object. -/
def TxStore.get (σ : TxStore) (r : TxRef) : Transaction :=
  σ.txs.getD r defaultTransaction

/-- In-place mutation of the object at `r` (no-op when out of range, which
never happens for references created by the operations). -/
def TxStore.set (σ : TxStore) (r : TxRef) (tx : Transaction) : TxStore :=
  ⟨σ.txs.set r tx⟩

/-- Allocate a fresh object; its reference is `σ.txs.length`. -/
def TxStore.alloc (σ : TxStore) (tx : Transaction) : TxStore :=
  ⟨σ.txs ++ [tx]⟩

/-- The data over which `Block.calculate_hash` computes its digest: exactly
the dictionary serialized in `blockchain.py` (`index`, `timestamp`,
`transactions` as a list of transaction dicts — i.e. by value, including
`status` — `previous_hash`, `nonce`). -/
structure BlockData where
  index : Nat
  timestamp : ℚ
  transactions : List Transaction
  previous_hash : String
  nonce : Nat
deriving Repr, DecidableEq

/-- A block (`Block` in `blockchain.py`).  `transactions` holds references
to the shared transaction objects. -/
structure Block where
  index : Nat
  timestamp : ℚ
  transactions : List TxRef
  previous_hash : String
  nonce : Nat
  hash : String
deriving Repr, DecidableEq

/-- The data a block's hash is computed over, reading the transaction
objects through the heap. -/
def Block.blockData (σ : TxStore) (b : Block) : BlockData :=
  { index := b.index, timestamp := b.timestamp,
    transactions := b.transactions.map σ.get,
    previous_hash := b.previous_hash, nonce := b.nonce }

/-- Embeds `Block.calculate_hash`, with the digest primitive `H` abstract. -/
def Block.calculate_hash (H : BlockData → String) (σ : TxStore) (b : Block) :
    String :=
  H (b.blockData σ)

/-- Embeds `Block.__init__`: nonce starts at 0 and the hash is computed at
construction time. -/
def Block.new (H : BlockData → String) (σ : TxStore) (index : Nat)
    (transactions : List TxRef) (previous_hash : String) (timestamp : ℚ) :
    Block :=
  let b : Block :=
    { index := index, timestamp := timestamp, transactions := transactions,
      previous_hash := previous_hash, nonce := 0, hash := "" }
  { b with hash := b.calculate_hash H σ }

/-- The proof-of-work target prefix, `"0" * difficulty`. -/
def zeroTarget (difficulty : Nat) : String :=
  String.mk (List.replicate difficulty '0')

/-- Embeds `Block.mine_block`: repeatedly increment the nonce and recompute the
hash until the first `difficulty` characters of the hash are zeros.  The
`while` loop is given explicit fuel: `none` means it has not terminated
within `fuel` iterations. -/
def Block.mine_block (H : BlockData → String) (σ : TxStore)
    (difficulty : Nat) : Nat → Block → Option Block
  | 0, b =>
    if b.hash.take difficulty = zeroTarget difficulty then some b else none
  | fuel + 1, b =>
    if b.hash.take difficulty = zeroTarget difficulty then some b
    else
      let b1 : Block := { b with nonce := b.nonce + 1 }
      Block.mine_block H σ difficulty fuel
        { b1 with hash := b1.calculate_hash H σ }

/-- The failure kinds of the `raise` sites in `blockchain.py` /
`transaction.py` (§7 of the spec names them `InvalidTransaction`,
`InsufficientBalance`, `DuplicateTransaction`). -/
inductive TxError where
  | invalidTransaction (message : String)
  | insufficientBalance (available required : ℚ)
  | duplicateTransaction
deriving Repr, DecidableEq

/-- Embeds `TransactionPool.__init__`: pending and confirmed lists of references
to the shared transaction objects. -/
structure TransactionPool where
  transactions : List TxRef
  confirmed_transactions : List TxRef
deriving Repr, DecidableEq

/-- Embeds `TransactionPool.add_transaction`: validate, reject a duplicate id
among the pending entries, otherwise append.  On failure the pool is
returned exactly as it was (the Python code raises before any mutation). -/
def TransactionPool.add_transaction (σ : TxStore) (pool : TransactionPool)
    (r : TxRef) : TransactionPool × Except TxError Bool :=
  let tx := σ.get r
  if (tx.is_valid).1 = false then
    (pool, .error (.invalidTransaction (tx.is_valid).2))
  else if pool.transactions.any
      (fun p => (σ.get p).transaction_id == tx.transaction_id) then
    (pool, .error .duplicateTransaction)
  else
    ({ pool with transactions := pool.transactions ++ [r] }, .ok true)

/-- The loop of `TransactionPool.confirm_transaction`: find the first
pending entry whose id matches, set its `status` to `"confirmed"` in the
heap, and pop it.  Returns the mutated heap, the remaining pending list and
the popped reference, or `none` when no entry matches. -/
def confirmFind (σ : TxStore) (tid : Option String) :
    List TxRef → Option (TxStore × List TxRef × TxRef)
  | [] => none
  | r :: rest =>
    if (σ.get r).transaction_id = tid then
      some (σ.set r { σ.get r with status := "confirmed" }, rest, r)
    else
      match confirmFind σ tid rest with
      | none => none
      | some (σ', rest', popped) => some (σ', r :: rest', popped)

/-- Embeds `TransactionPool.confirm_transaction`: move the first matching pending
entry to the confirmed list, mutating its `status`; `false` when no entry
matches. -/
def TransactionPool.confirm_transaction (σ : TxStore)
    (pool : TransactionPool) (tid : Option String) :
    TxStore × TransactionPool × Bool :=
  match confirmFind σ tid pool.transactions with
  | none => (σ, pool, false)
  | some (σ', rest, popped) =>
    (σ', { pool with
            transactions := rest,
            confirmed_transactions := pool.confirmed_transactions ++ [popped] },
     true)

/-- Embeds the `Blockchain` state (`blockchain.py`): the chain, the pending queue and
the pool all hold references into the shared heap. -/
structure Blockchain where
  chain : List Block
  difficulty : Nat
  pending_transactions : List TxRef
  mining_reward : ℚ
  transaction_pool : TransactionPool
deriving Repr, DecidableEq

/-- Embeds `Blockchain.create_genesis_block`: index 0, no transactions,
`previous_hash = "0"`. -/
def Blockchain.create_genesis_block (H : BlockData → String) (σ : TxStore)
    (timestamp : ℚ) : Block :=
  Block.new H σ 0 [] "0" timestamp

/-- Embeds `Blockchain.__init__` with genesis timestamp made explicit;
`mining_reward = 10.0`, empty pending queue and pool. -/
def Blockchain.init (H : BlockData → String) (σ : TxStore)
    (genesisTime : ℚ) (difficulty : Nat) : Blockchain :=
  { chain := [Blockchain.create_genesis_block H σ genesisTime],
    difficulty := difficulty,
    pending_transactions := [],
    mining_reward := 10,
    transaction_pool := { transactions := [], confirmed_transactions := [] } }

/-- The body of the replay loop of `Blockchain.get_balance`: credit the
recipient with `amount`, debit the sender with `amount + fee` (two
independent `if`s, as in the source). -/
def balanceStep (σ : TxStore) (address : String) (balance : ℚ)
    (r : TxRef) : ℚ :=
  let tx := σ.get r
  let balance :=
    if tx.recipient_address = address then balance + tx.amount else balance
  if tx.sender_address = address then balance - (tx.amount + tx.fee)
  else balance

/-- Embeds `Blockchain.get_balance`: replay every transaction of every chain
block, starting from `0.0`. -/
def Blockchain.get_balance (σ : TxStore) (bc : Blockchain)
    (address : String) : ℚ :=
  bc.chain.foldl
    (fun balance block => block.transactions.foldl (balanceStep σ address) balance)
    0

/-- Embeds `Blockchain.add_transaction`: validate, check the sender's replayed
balance against `amount + fee`, then add to the pool and append to the
pending queue.  On failure the blockchain is returned exactly as it was. -/
def Blockchain.add_transaction (σ : TxStore) (bc : Blockchain) (r : TxRef) :
    Blockchain × Except TxError Bool :=
  let tx := σ.get r
  if (tx.is_valid).1 = false then
    (bc, .error (.invalidTransaction (tx.is_valid).2))
  else
    let sender_balance := bc.get_balance σ tx.sender_address
    let required_amount := tx.amount + tx.fee
    if sender_balance < required_amount then
      (bc, .error (.insufficientBalance sender_balance required_amount))
    else
      match bc.transaction_pool.add_transaction σ r with
      | (_, .error e) => (bc, .error e)
      | (pool', .ok _) =>
        ({ bc with
            transaction_pool := pool',
            pending_transactions := bc.pending_transactions ++ [r] },
         .ok true)

/-- The loop `for tx in self.pending_transactions:
self.transaction_pool.confirm_transaction(tx.transaction_id)` in
`mine_pending_transactions`. -/
def confirmLoop (σ : TxStore) (pool : TransactionPool) :
    List TxRef → TxStore × TransactionPool
  | [] => (σ, pool)
  | r :: rest =>
    let step := TransactionPool.confirm_transaction σ pool
      ((σ.get r).transaction_id)
    confirmLoop step.1 step.2.1 rest

/-- The reward transaction synthesized by `mine_pending_transactions`:
sender `"system"`, the fixed mining reward, fee 0, pre-set id and
signature, status already `"confirmed"`. -/
def rewardTransaction (mining_reward : ℚ) (mining_reward_address : String)
    (rewardTime : ℚ) (clockSeconds : Nat) : Transaction :=
  { sender_address := "system",
    recipient_address := mining_reward_address,
    amount := mining_reward, fee := 0, message := "Mining reward",
    timestamp := rewardTime,
    transaction_id := some ("reward_" ++ toString clockSeconds),
    signature := some "system_signature",
    status := "confirmed" }

/-- Embeds `Blockchain.mine_pending_transactions`: returns `false` unchanged when
the pending queue is empty; otherwise allocates the reward transaction,
builds a block over the pending references plus the reward reference,
mines it, appends it, confirms every originally-pending transaction in the
pool (mutating the shared objects' `status`), and clears the pending
queue.  `none` models non-termination of the mining loop (fuel exhausted)
or the impossible empty-chain crash. -/
def Blockchain.mine_pending_transactions (H : BlockData → String)
    (σ : TxStore) (bc : Blockchain) (mining_reward_address : String)
    (rewardTime blockTime : ℚ) (clockSeconds : Nat) (fuel : Nat) :
    Option (TxStore × Blockchain × Bool) :=
  if bc.pending_transactions = [] then some (σ, bc, false)
  else
    let reward := rewardTransaction bc.mining_reward mining_reward_address
      rewardTime clockSeconds
    let rref : TxRef := σ.txs.length
    let σ1 := σ.alloc reward
    let transactions_to_mine := bc.pending_transactions ++ [rref]
    match bc.chain.getLast? with
    | none => none
    | some latest =>
      let new_block :=
        Block.new H σ1 bc.chain.length transactions_to_mine latest.hash
          blockTime
      match Block.mine_block H σ1 bc.difficulty fuel new_block with
      | none => none
      | some mined =>
        let chain1 := bc.chain ++ [mined]
        let confirmed := confirmLoop σ1 bc.transaction_pool
          bc.pending_transactions
        some (confirmed.1,
              { bc with
                  chain := chain1,
                  transaction_pool := confirmed.2,
                  pending_transactions := [] },
              true)

/-- The loop of `Blockchain.is_chain_valid` from index `i`, carrying the
previous block: recomputed-hash check, linkage check, difficulty check, in
source order with the source's messages. -/
def chainValidFrom (H : BlockData → String) (σ : TxStore)
    (difficulty : Nat) : Block → Nat → List Block → Bool × String
  | _, _, [] => (true, "Blockchain is valid")
  | previous_block, i, current_block :: rest =>
    if current_block.hash ≠ current_block.calculate_hash H σ then
      (false, "Invalid hash at block " ++ toString i)
    else if current_block.previous_hash ≠ previous_block.hash then
      (false, "Invalid previous hash at block " ++ toString i)
    else if current_block.hash.take difficulty ≠ zeroTarget difficulty then
      (false, "Block " ++ toString i ++ " not properly mined")
    else chainValidFrom H σ difficulty current_block (i + 1) rest

/-- Embeds `Blockchain.is_chain_valid`: check blocks `1 .. len-1` against their
predecessors. -/
def Blockchain.is_chain_valid (H : BlockData → String) (σ : TxStore)
    (bc : Blockchain) : Bool × String :=
  match bc.chain with
  | [] => (true, "Blockchain is valid")
  | b :: rest => chainValidFrom H σ bc.difficulty b 1 rest

/-- The cryptographic primitives used by `Transaction.sign_transaction`
(`crypto_utils.py` delegates them to external libraries): a key type, the
signing primitive, the content-hash primitive, and the canonical
serialization of the six signed fields (`get_transaction_data`).  The
signing primitive takes, besides the key and the message, the entropy of
its per-call random nonce draw (python-ecdsa's `SigningKey.sign` is
randomized; deterministic signing would be `sign_deterministic`).  The
content hash (SHA-256) is a pure function of the message. -/
structure SigPrims where
  Key : Type
  Entropy : Type
  sign_message : Key → Entropy → String → String
  hash_transaction : String → String
  encodePayload : String → String → ℚ → ℚ → String → ℚ → String

/-- Embeds `Transaction.get_transaction_data`: the canonical serialization of the
unsigned fields (sender, recipient, amount, fee, message, timestamp) —
excludes id, signature and status. -/
def Transaction.get_transaction_data (P : SigPrims) (tx : Transaction) :
    String :=
  P.encodePayload tx.sender_address tx.recipient_address tx.amount tx.fee
    tx.message tx.timestamp

/-- Embeds `Transaction.sign_transaction`: set `signature` to the signature of
the canonical payload (computed with this call's entropy draw `e`) and
`transaction_id` to the payload's content hash. -/
def Transaction.sign_transaction (P : SigPrims) (k : P.Key) (e : P.Entropy)
    (tx : Transaction) : Transaction :=
  { tx with
      signature := some (P.sign_message k e (tx.get_transaction_data P)),
      transaction_id := some (P.hash_transaction (tx.get_transaction_data P)) }

/-! ## Basic heap lemmas -/

theorem TxStore.length_set (σ : TxStore) (r : TxRef) (tx : Transaction) :
    (σ.set r tx).txs.length = σ.txs.length := by
  simp [TxStore.set]

theorem TxStore.get_set_self (σ : TxStore) (r : TxRef) (tx : Transaction)
    (h : r < σ.txs.length) : (σ.set r tx).get r = tx := by
  simp [TxStore.set, TxStore.get, List.getD_eq_getElem?_getD,
    List.getElem?_set_self h]

theorem TxStore.get_set_ne (σ : TxStore) (r r' : TxRef) (tx : Transaction)
    (h : r ≠ r') : (σ.set r tx).get r' = σ.get r' := by
  simp [TxStore.set, TxStore.get, List.getD_eq_getElem?_getD,
    List.getElem?_set_ne h]

theorem TxStore.get_alloc_lt (σ : TxStore) (tx : Transaction) (r : TxRef)
    (h : r < σ.txs.length) : (σ.alloc tx).get r = σ.get r := by
  simp [TxStore.alloc, TxStore.get, List.getD_eq_getElem?_getD,
    List.getElem?_append, h]

theorem TxStore.get_alloc_self (σ : TxStore) (tx : Transaction) :
    (σ.alloc tx).get σ.txs.length = tx := by
  simp [TxStore.alloc, TxStore.get, List.getD_eq_getElem?_getD,
    List.getElem?_concat_length]

/-! ## Mining-loop lemmas -/

/-- The mining loop only changes `nonce` and `hash`. -/
theorem Block.mine_block_fields (H : BlockData → String) (σ : TxStore)
    (difficulty : Nat) :
    ∀ (fuel : Nat) (b b' : Block),
      Block.mine_block H σ difficulty fuel b = some b' →
      b'.index = b.index ∧ b'.timestamp = b.timestamp ∧
      b'.transactions = b.transactions ∧ b'.previous_hash = b.previous_hash := by
  intro fuel
  induction fuel with
  | zero =>
    intro b b' h
    unfold Block.mine_block at h
    split at h
    · cases h; exact ⟨rfl, rfl, rfl, rfl⟩
    · cases h
  | succ n ih =>
    intro b b' h
    unfold Block.mine_block at h
    split at h
    · cases h; exact ⟨rfl, rfl, rfl, rfl⟩
    · obtain ⟨h1, h2, h3, h4⟩ := ih _ _ h
      exact ⟨h1, h2, h3, h4⟩

/-- Whenever the mining loop terminates, the stored hash meets the
difficulty target (both return sites are guarded by the loop condition). -/
theorem Block.mine_block_target (H : BlockData → String) (σ : TxStore)
    (difficulty : Nat) :
    ∀ (fuel : Nat) (b b' : Block),
      Block.mine_block H σ difficulty fuel b = some b' →
      b'.hash.take difficulty = zeroTarget difficulty := by
  intro fuel
  induction fuel with
  | zero =>
    intro b b' h
    unfold Block.mine_block at h
    split at h
    · cases h; assumption
    · cases h
  | succ n ih =>
    intro b b' h
    unfold Block.mine_block at h
    split at h
    · cases h; assumption
    · exact ih _ _ h

/-- The mining loop preserves the hash invariant
`hash = calculate_hash`. -/
theorem Block.mine_block_post (H : BlockData → String) (σ : TxStore)
    (difficulty : Nat) :
    ∀ (fuel : Nat) (b b' : Block),
      b.hash = b.calculate_hash H σ →
      Block.mine_block H σ difficulty fuel b = some b' →
      b'.hash = b'.calculate_hash H σ := by
  intro fuel
  induction fuel with
  | zero =>
    intro b b' hinv h
    unfold Block.mine_block at h
    split at h
    · cases h; exact hinv
    · cases h
  | succ n ih =>
    intro b b' hinv h
    unfold Block.mine_block at h
    split at h
    · cases h; exact hinv
    · exact ih _ _ rfl h

/-! ## Error-shape helpers -/

deriving instance DecidableEq for Except

/-- Recognizer for the `InsufficientBalance` failure kind. -/
def isInsufficientErr : Except TxError Bool → Bool
  | .error (.insufficientBalance _ _) => true
  | _ => false

/-- The pool's `add_transaction` never fails with `InsufficientBalance`
(its only `raise` sites are the validity and duplicate checks). -/
theorem TransactionPool.add_never_insufficient (σ : TxStore)
    (pool : TransactionPool) (r : TxRef) :
    isInsufficientErr (TransactionPool.add_transaction σ pool r).2 = false := by
  by_cases h1 : (((σ.get r).is_valid).1 = false)
  · simp [TransactionPool.add_transaction, h1, isInsufficientErr]
  · by_cases h2 : pool.transactions.any
        (fun p => (σ.get p).transaction_id == (σ.get r).transaction_id) = true
    · simp [TransactionPool.add_transaction, h1, h2, isInsufficientErr]
    · simp [TransactionPool.add_transaction, h1, h2, isInsufficientErr]

/-! ## Concrete instances used by the claim witnesses -/

/-- The empty heap. -/
def emptyStore : TxStore := ⟨[]⟩

/-- A trivial digest model. -/
def H0 : BlockData → String := fun _ => ""

/-- A concrete digest model that distinguishes whether any serialized
transaction still has status `"pending"` (any digest of the serialized
block data separates these two serializations; SHA-256 does). -/
def Hc : BlockData → String :=
  fun bd =>
    if bd.transactions.any (fun tx => tx.status == "pending") then "p"
    else "c"

/-- A confirmed in-chain transaction crediting `"alice"` with 5. -/
def txFund5 : Transaction :=
  { sender_address := "system", recipient_address := "alice", amount := 5,
    fee := 0, message := "", timestamp := 0, transaction_id := some "f1",
    signature := some "s", status := "confirmed" }

/-- A signed transaction spending 4 with fee 2 from `"alice"`. -/
def txSpend6 : Transaction :=
  { sender_address := "alice", recipient_address := "bob", amount := 4,
    fee := 2, message := "", timestamp := 0, transaction_id := some "t1",
    signature := some "sg", status := "pending" }

/-- Heap for the C4 witness: the funding transaction and the spend. -/
def storeW4 : TxStore := ⟨[txFund5, txSpend6]⟩

/-- A chain block containing the funding transaction (reference 0). -/
def blockW4 : Block :=
  { index := 0, timestamp := 0, transactions := [0], previous_hash := "0",
    nonce := 0, hash := "h" }

/-- Blockchain state for the C4 witness: `"alice"` has confirmed balance
5, pool and pending queue empty. -/
def bcW4 : Blockchain :=
  { chain := [blockW4], difficulty := 2, pending_transactions := [],
    mining_reward := 10,
    transaction_pool := { transactions := [], confirmed_transactions := [] } }

/-- Blockchain state for the C6 witness: fresh chain (genesis only). -/
def bcW6 : Blockchain := Blockchain.init H0 emptyStore 0 2

/-- Heap for the C6 witness: just the spend transaction. -/
def storeW6 : TxStore := ⟨[txSpend6]⟩

/-! ## Claims -/

/-- C7: for every block and difficulty, when `mine_block` terminates, the
stored hash starts with `difficulty` zeros — unconditionally, hence every
block accepted into the chain by mining meets the target at the moment it
is appended — and it equals the hash recomputed from the block's current
fields, given the block data model invariant `hash = calculate_hash`
(§3 of the spec), which `Block.__init__` establishes for every
constructed block and which therefore holds for every block mining is
called on. -/
theorem claim_C7_mine_block_postcondition
    (H : BlockData → String) (σ : TxStore) (difficulty fuel : Nat)
    (b b' : Block)
    (hmine : Block.mine_block H σ difficulty fuel b = some b') :
    b'.hash.take difficulty = zeroTarget difficulty ∧
    (b.hash = b.calculate_hash H σ → b'.hash = b'.calculate_hash H σ) :=
  ⟨Block.mine_block_target H σ difficulty fuel b b' hmine,
   fun hinv => Block.mine_block_post H σ difficulty fuel b b' hinv hmine⟩

/-- Witness for C7 at a concrete constructed block and difficulty 0. -/
theorem claim_C7_witness :
    (Block.new H0 emptyStore 0 [] "0" 0).hash.take 0 = zeroTarget 0 ∧
    ((Block.new H0 emptyStore 0 [] "0" 0).hash
        = (Block.new H0 emptyStore 0 [] "0" 0).calculate_hash H0 emptyStore →
      (Block.new H0 emptyStore 0 [] "0" 0).hash
        = (Block.new H0 emptyStore 0 [] "0" 0).calculate_hash H0 emptyStore) :=
  claim_C7_mine_block_postcondition H0 emptyStore 0 0
    (Block.new H0 emptyStore 0 [] "0" 0) (Block.new H0 emptyStore 0 [] "0" 0)
    (by decide)

/-- C6: `add_transaction` is atomic on failure — whenever it fails, the
blockchain (chain, pending queue and pool) is returned exactly as it was;
likewise the pool's own `add_transaction` leaves the pool unchanged on
failure. -/
theorem claim_C6_add_transaction_atomic :
    (∀ (σ : TxStore) (bc : Blockchain) (r : TxRef) (e : TxError),
       (Blockchain.add_transaction σ bc r).2 = .error e →
       (Blockchain.add_transaction σ bc r).1 = bc) ∧
    (∀ (σ : TxStore) (pool : TransactionPool) (r : TxRef) (e : TxError),
       (TransactionPool.add_transaction σ pool r).2 = .error e →
       (TransactionPool.add_transaction σ pool r).1 = pool) := by
  constructor
  · intro σ bc r e h
    by_cases h1 : (((σ.get r).is_valid).1 = false)
    · simp [Blockchain.add_transaction, h1]
    · by_cases h2 : bc.get_balance σ (σ.get r).sender_address <
          (σ.get r).amount + (σ.get r).fee
      · simp [Blockchain.add_transaction, h1, h2]
      · rcases hp : TransactionPool.add_transaction σ bc.transaction_pool r
          with ⟨pool', res⟩
        cases res with
        | error e' => simp [Blockchain.add_transaction, h1, h2, hp]
        | ok bb =>
          exfalso
          simp [Blockchain.add_transaction, h1, h2, hp] at h
  · intro σ pool r e h
    by_cases h1 : (((σ.get r).is_valid).1 = false)
    · simp [TransactionPool.add_transaction, h1]
    · by_cases h2 : pool.transactions.any
          (fun p => (σ.get p).transaction_id == (σ.get r).transaction_id) = true
      · simp [TransactionPool.add_transaction, h1, h2]
      · exfalso
        simp [TransactionPool.add_transaction, h1, h2] at h

/-- Witness for C6: a rejected (insufficient balance) transaction leaves a
fresh blockchain unchanged. -/
theorem claim_C6_witness :
    (Blockchain.add_transaction storeW6 bcW6 0).1 = bcW6 :=
  claim_C6_add_transaction_atomic.1 storeW6 bcW6 0
    (.insufficientBalance 0 6) (by with_unfolding_all decide)

/-- C4: for a structurally valid transaction, `add_transaction` fails with
`InsufficientBalance` exactly when the sender's replayed balance is
strictly below `amount + fee` (so a balance exactly equal to
`amount + fee` is not rejected for balance). -/
theorem claim_C4_insufficient_balance_iff (σ : TxStore) (bc : Blockchain)
    (r : TxRef) (hvalid : ((σ.get r).is_valid).1 = true) :
    isInsufficientErr (Blockchain.add_transaction σ bc r).2 = true ↔
    bc.get_balance σ (σ.get r).sender_address <
      (σ.get r).amount + (σ.get r).fee := by
  have h1 : ¬(((σ.get r).is_valid).1 = false) := by simp [hvalid]
  by_cases h2 : bc.get_balance σ (σ.get r).sender_address <
      (σ.get r).amount + (σ.get r).fee
  · simp [Blockchain.add_transaction, h1, h2, isInsufficientErr]
  · rcases hp : TransactionPool.add_transaction σ bc.transaction_pool r
      with ⟨pool', res⟩
    have hnever := TransactionPool.add_never_insufficient σ bc.transaction_pool r
    rw [hp] at hnever
    cases res with
    | error e' =>
      simp [Blockchain.add_transaction, h1, h2, hp]
      simpa using hnever
    | ok bb => simp [Blockchain.add_transaction, h1, h2, hp, isInsufficientErr]

/-- Witness for C4: a sender with confirmed balance 5.0 sending amount 4.0
with fee 2.0 is rejected with `InsufficientBalance`. -/
theorem claim_C4_witness :
    isInsufficientErr (Blockchain.add_transaction storeW4 bcW4 1).2 = true :=
  (claim_C4_insufficient_balance_iff storeW4 bcW4 1 (by decide)).mpr
    (by with_unfolding_all decide)

/-- A confirmed in-chain transaction crediting `"alice"` with 10. -/
def txFund10 : Transaction :=
  { sender_address := "system", recipient_address := "alice", amount := 10,
    fee := 0, message := "", timestamp := 0, transaction_id := some "f2",
    signature := some "s", status := "confirmed" }

/-- Heap for the C5 witness. -/
def storeW5 : TxStore := ⟨[txFund10, txSpend6]⟩

/-- A chain block containing the 10-credit (reference 0). -/
def blockW5 : Block :=
  { index := 0, timestamp := 0, transactions := [0], previous_hash := "0",
    nonce := 0, hash := "h" }

/-- Blockchain state for the C5 witness: `"alice"` has confirmed balance
10, pool and pending queue empty. -/
def bcW5 : Blockchain :=
  { chain := [blockW5], difficulty := 2, pending_transactions := [],
    mining_reward := 10,
    transaction_pool := { transactions := [], confirmed_transactions := [] } }

/-- C5: the pool's add fails with `DuplicateTransaction` exactly when a
transaction with the same id is already among its pending entries, and
otherwise appends the reference at the end (FIFO); consequently submitting
the same signed transaction twice through `Blockchain.add_transaction`
(with sufficient balance, so that the first call succeeds) fails with
`DuplicateTransaction` the second time. -/
theorem claim_C5_duplicate_rejection :
    (∀ (σ : TxStore) (pool : TransactionPool) (r : TxRef),
       ((σ.get r).is_valid).1 = true →
       (((TransactionPool.add_transaction σ pool r).2
            = .error .duplicateTransaction ↔
          ∃ p ∈ pool.transactions,
            (σ.get p).transaction_id = (σ.get r).transaction_id) ∧
        ((¬ ∃ p ∈ pool.transactions,
            (σ.get p).transaction_id = (σ.get r).transaction_id) →
          TransactionPool.add_transaction σ pool r
            = ({ pool with transactions := pool.transactions ++ [r] },
               .ok true)))) ∧
    (∀ (σ : TxStore) (bc : Blockchain) (r : TxRef),
       ((σ.get r).is_valid).1 = true →
       (Blockchain.add_transaction σ bc r).2 = .ok true →
       (Blockchain.add_transaction σ ((Blockchain.add_transaction σ bc r).1) r).2
         = .error .duplicateTransaction) := by
  have hany_iff : ∀ (σ : TxStore) (pool : TransactionPool) (r : TxRef),
      (pool.transactions.any
        (fun p => (σ.get p).transaction_id == (σ.get r).transaction_id) = true)
      ↔ ∃ p ∈ pool.transactions,
          (σ.get p).transaction_id = (σ.get r).transaction_id := by
    intro σ pool r
    rw [List.any_eq_true]
    constructor
    · rintro ⟨p, hp, he⟩; exact ⟨p, hp, by simpa using he⟩
    · rintro ⟨p, hp, he⟩; exact ⟨p, hp, by simpa using he⟩
  constructor
  · intro σ pool r hvalid
    have h1 : ¬(((σ.get r).is_valid).1 = false) := by simp [hvalid]
    by_cases h2 : pool.transactions.any
        (fun p => (σ.get p).transaction_id == (σ.get r).transaction_id) = true
    · have heq : TransactionPool.add_transaction σ pool r
          = (pool, .error .duplicateTransaction) := by
        simp [TransactionPool.add_transaction, h1, h2]
      refine ⟨?_, fun hno => absurd ((hany_iff σ pool r).mp h2) hno⟩
      rw [heq]
      exact ⟨fun _ => (hany_iff σ pool r).mp h2, fun _ => rfl⟩
    · have heq : TransactionPool.add_transaction σ pool r
          = ({ pool with transactions := pool.transactions ++ [r] },
             .ok true) := by
        simp [TransactionPool.add_transaction, h1, h2]
      refine ⟨?_, fun _ => heq⟩
      rw [heq]
      constructor
      · intro hcontra; cases hcontra
      · intro hex; exact absurd ((hany_iff σ pool r).mpr hex) h2
  · intro σ bc r hvalid hok
    have h1 : ¬(((σ.get r).is_valid).1 = false) := by simp [hvalid]
    by_cases h2 : bc.get_balance σ (σ.get r).sender_address <
        (σ.get r).amount + (σ.get r).fee
    · exfalso; simp [Blockchain.add_transaction, h1, h2] at hok
    · rcases hp : TransactionPool.add_transaction σ bc.transaction_pool r
        with ⟨pool', res⟩
      cases res with
      | error e' =>
        exfalso; simp [Blockchain.add_transaction, h1, h2, hp] at hok
      | ok bb =>
        have hda : ¬(bc.transaction_pool.transactions.any
            (fun p => (σ.get p).transaction_id
              == (σ.get r).transaction_id) = true) := by
          intro hda
          simp [TransactionPool.add_transaction, h1, hda] at hp
        have hpool : pool' = { bc.transaction_pool with
            transactions := bc.transaction_pool.transactions ++ [r] } := by
          simp [TransactionPool.add_transaction, h1, hda] at hp
          exact hp.1.symm
        have hbc' : (Blockchain.add_transaction σ bc r).1
            = { bc with
                  transaction_pool := pool',
                  pending_transactions := bc.pending_transactions ++ [r] } := by
          simp [Blockchain.add_transaction, h1, h2, hp]
        rw [hbc']
        have h2' : ¬(Blockchain.get_balance σ
            { bc with
                transaction_pool := pool',
                pending_transactions := bc.pending_transactions ++ [r] }
            (σ.get r).sender_address <
            (σ.get r).amount + (σ.get r).fee) := h2
        have hany2 : ({ bc with
              transaction_pool := pool',
              pending_transactions := bc.pending_transactions ++ [r]
            } : Blockchain).transaction_pool.transactions.any
            (fun p => (σ.get p).transaction_id
              == (σ.get r).transaction_id) = true := by
          rw [hpool]; simp
        simp [Blockchain.add_transaction, TransactionPool.add_transaction,
          h1, h2', hany2]

/-- Witness for C5: the same signed transaction, submitted twice from a
state where `"alice"` has balance 10, is accepted once and rejected as a
duplicate the second time. -/
theorem claim_C5_witness :
    (Blockchain.add_transaction storeW5
        ((Blockchain.add_transaction storeW5 bcW5 1).1) 1).2
      = .error .duplicateTransaction :=
  claim_C5_duplicate_rejection.2 storeW5 bcW5 1 (by decide)
    (by with_unfolding_all decide)

/-! ## Signature-independence machinery (C9) -/

/-- A transaction with its `signature` field blanked; two transactions
with equal `eraseSig` agree on every field except the signature. -/
def Transaction.eraseSig (tx : Transaction) : Transaction :=
  { tx with signature := none }

theorem Transaction.eraseSig_fields {t1 t2 : Transaction}
    (h : t1.eraseSig = t2.eraseSig) :
    t1.sender_address = t2.sender_address ∧
    t1.recipient_address = t2.recipient_address ∧
    t1.amount = t2.amount ∧ t1.fee = t2.fee ∧
    t1.message = t2.message ∧ t1.timestamp = t2.timestamp ∧
    t1.transaction_id = t2.transaction_id ∧ t1.status = t2.status := by
  simp only [Transaction.eraseSig, Transaction.mk.injEq] at h
  obtain ⟨h1, h2, h3, h4, h5, h6, h7, -, h8⟩ := h
  exact ⟨h1, h2, h3, h4, h5, h6, h7, h8⟩

/-- The check `is_valid` reads the signature only through its truthiness. -/
theorem Transaction.is_valid_sig_indep {t1 t2 : Transaction}
    (h : t1.eraseSig = t2.eraseSig)
    (hfalsy : optStrFalsy t1.signature = optStrFalsy t2.signature) :
    t1.is_valid = t2.is_valid := by
  obtain ⟨h1, h2, h3, h4, h5, h6, h7, h8⟩ := Transaction.eraseSig_fields h
  unfold Transaction.is_valid
  rw [h1, h2, h3, h4, h7, hfalsy]

/-- Pointwise consequences of two heaps agreeing modulo signatures. -/
theorem TxStore.get_eraseSig_of_map_eq {σ1 σ2 : TxStore}
    (hmap : σ1.txs.map Transaction.eraseSig = σ2.txs.map Transaction.eraseSig)
    (x : TxRef) : (σ1.get x).eraseSig = (σ2.get x).eraseSig := by
  have h := congrArg (fun l => l[x]?) hmap
  simp only [List.getElem?_map] at h
  unfold TxStore.get
  rw [List.getD_eq_getElem?_getD, List.getD_eq_getElem?_getD]
  rcases e1 : σ1.txs[x]? with _ | t1 <;> rcases e2 : σ2.txs[x]? with _ | t2 <;>
    rw [e1, e2] at h <;> simp_all

theorem TxStore.get_falsy_of_map_eq {σ1 σ2 : TxStore}
    (hmap : σ1.txs.map (fun tx => optStrFalsy tx.signature)
      = σ2.txs.map (fun tx => optStrFalsy tx.signature))
    (x : TxRef) :
    optStrFalsy (σ1.get x).signature = optStrFalsy (σ2.get x).signature := by
  have h := congrArg (fun l => l[x]?) hmap
  simp only [List.getElem?_map] at h
  unfold TxStore.get
  rw [List.getD_eq_getElem?_getD, List.getD_eq_getElem?_getD]
  rcases e1 : σ1.txs[x]? with _ | t1 <;> rcases e2 : σ2.txs[x]? with _ | t2 <;>
    rw [e1, e2] at h <;> simp_all

/-- C9: acceptance never checks cryptographic signature validity.
(1) Any transaction whose sender and recipient are non-empty and
different, with positive amount, non-negative fee and any non-empty
signature and id, passes `is_valid`.
(2) `add_transaction`'s outcome is unchanged when the stored signatures
are replaced by any other non-empty strings — the signature is read only
through its truthiness, never verified (`verify_signature` is not
invoked anywhere on the acceptance path). -/
theorem claim_C9_no_crypto_check :
    (∀ tx : Transaction,
       tx.sender_address ≠ "" → tx.recipient_address ≠ "" →
       tx.sender_address ≠ tx.recipient_address →
       0 < tx.amount → 0 ≤ tx.fee →
       optStrFalsy tx.signature = false →
       optStrFalsy tx.transaction_id = false →
       tx.is_valid = (true, "Transaction is valid")) ∧
    (∀ (σ1 σ2 : TxStore) (bc : Blockchain) (r : TxRef),
       σ1.txs.map Transaction.eraseSig = σ2.txs.map Transaction.eraseSig →
       σ1.txs.map (fun tx => optStrFalsy tx.signature)
         = σ2.txs.map (fun tx => optStrFalsy tx.signature) →
       Blockchain.add_transaction σ1 bc r
         = Blockchain.add_transaction σ2 bc r) := by
  constructor
  · intro tx h1 h2 h3 h4 h5 h6 h7
    have h4' : ¬(tx.amount ≤ 0) := not_le.mpr h4
    have h5' : ¬(tx.fee < 0) := not_lt.mpr h5
    simp [Transaction.is_valid, h1, h2, h3, h4', h5', h6, h7]
  · intro σ1 σ2 bc r hmap hfalsy
    have hgete := fun x => TxStore.get_eraseSig_of_map_eq hmap x
    have hgetf := fun x => TxStore.get_falsy_of_map_eq hfalsy x
    have hv : ∀ x, (σ1.get x).is_valid = (σ2.get x).is_valid := fun x =>
      Transaction.is_valid_sig_indep (hgete x) (hgetf x)
    have hstep : balanceStep σ1 = balanceStep σ2 := by
      funext a bal x
      obtain ⟨f1, f2, f3, f4, -, -, -, -⟩ :=
        Transaction.eraseSig_fields (hgete x)
      simp only [balanceStep]
      rw [f1, f2, f3, f4]
    have hbal : ∀ a, Blockchain.get_balance σ1 bc a
        = Blockchain.get_balance σ2 bc a := by
      intro a
      unfold Blockchain.get_balance
      rw [hstep]
    have hid : ∀ x, (σ1.get x).transaction_id = (σ2.get x).transaction_id :=
      fun x => (Transaction.eraseSig_fields (hgete x)).2.2.2.2.2.2.1
    have hpool : TransactionPool.add_transaction σ1 bc.transaction_pool r
        = TransactionPool.add_transaction σ2 bc.transaction_pool r := by
      simp only [TransactionPool.add_transaction]
      rw [hv r]
      have hpred : (fun p => (σ1.get p).transaction_id
            == (σ1.get r).transaction_id)
          = (fun p => (σ2.get p).transaction_id
            == (σ2.get r).transaction_id) := by
        funext p
        rw [hid p, hid r]
      rw [hpred]
    obtain ⟨f1, f2, f3, f4, -, -, -, -⟩ := Transaction.eraseSig_fields (hgete r)
    simp only [Blockchain.add_transaction]
    rw [hv r, hbal, f1, f3, f4, hpool]

/-- Heap for the C9 witness: like `storeW5` but the spend transaction
carries a different (cryptographically meaningless) signature. -/
def storeW9 : TxStore := ⟨[txFund10, { txSpend6 with signature := some "bad" }]⟩

/-- Witness for C9: replacing the signature string changes nothing about
`add_transaction`'s outcome. -/
theorem claim_C9_witness :
    Blockchain.add_transaction storeW5 bcW5 1
      = Blockchain.add_transaction storeW9 bcW5 1 :=
  claim_C9_no_crypto_check.2 storeW5 storeW9 bcW5 1 (by decide) (by decide)

/-! ## Re-signing (C8) -/

/-- A concrete instance of the signing primitives whose signature depends
on the per-call nonce entropy, as the randomized library primitive's
does. -/
@[reducible] def sigPrimsC : SigPrims :=
  { Key := Unit,
    Entropy := Nat,
    sign_message := fun _ e _ => toString e,
    hash_transaction := fun s => s,
    encodePayload := fun s r _ _ _ _ => s ++ r }

/-- A concrete unsigned transaction. -/
def txC8 : Transaction :=
  { sender_address := "alice", recipient_address := "bob", amount := 1,
    fee := 0, message := "hi", timestamp := 0, transaction_id := none,
    signature := none, status := "pending" }

/-- C8, counterexample: signing is *not* idempotent as claimed.  The
signing primitive draws a fresh random nonce on each call, so a second
`sign_transaction` with the same key but a different entropy draw stores
a different signature — an observable change.  Concretely, with an
entropy-dependent signature, signing `txC8` twice (draws 0 then 1) does
not return the once-signed transaction. -/
theorem claim_C8_sign_counterexample :
    (txC8.sign_transaction sigPrimsC () 0).sign_transaction sigPrimsC () 1
      ≠ txC8.sign_transaction sigPrimsC () 0 := by
  decide

/-- C8 (amended): calling `sign(k)` twice in succession yields the same
`transaction_id` as calling it once (the id is the content hash of the
unchanged canonical payload), and changes nothing observable outside the
`signature` field; the signature is recomputed over the same payload with
the same key, and is the same again exactly in the case where the
primitive's per-call entropy draw is the same (e.g. under deterministic
signing). -/
theorem claim_C8_sign_idempotent_amended (P : SigPrims) (k : P.Key)
    (e1 e2 : P.Entropy) (tx : Transaction) :
    ((tx.sign_transaction P k e1).sign_transaction P k e2).transaction_id
        = (tx.sign_transaction P k e1).transaction_id
    ∧ ((tx.sign_transaction P k e1).sign_transaction P k e2).eraseSig
        = (tx.sign_transaction P k e1).eraseSig
    ∧ (e1 = e2 →
        (tx.sign_transaction P k e1).sign_transaction P k e2
          = tx.sign_transaction P k e1) := by
  refine ⟨rfl, rfl, ?_⟩
  rintro rfl
  rfl

/-- Witness for the amended C8, at the concrete primitives and
transaction, with equal entropy draws. -/
theorem claim_C8_witness :
    ((txC8.sign_transaction sigPrimsC () 0).sign_transaction
        sigPrimsC () 0).transaction_id
        = (txC8.sign_transaction sigPrimsC () 0).transaction_id
    ∧ ((txC8.sign_transaction sigPrimsC () 0).sign_transaction
        sigPrimsC () 0).eraseSig
        = (txC8.sign_transaction sigPrimsC () 0).eraseSig
    ∧ ((0 : Nat) = (0 : Nat) →
        (txC8.sign_transaction sigPrimsC () 0).sign_transaction sigPrimsC () 0
          = txC8.sign_transaction sigPrimsC () 0) :=
  claim_C8_sign_idempotent_amended sigPrimsC () (0 : Nat) (0 : Nat) txC8

/-! ## Balance machinery (C3) -/

/-- All transactions stored in chain blocks, in chain order. -/
def Blockchain.chainTransactions (σ : TxStore) (bc : Blockchain) :
    List Transaction :=
  (bc.chain.map (fun b => b.transactions.map σ.get)).flatten

/-- The spec side of the §8 balance invariant: the sum of the amounts of
chain transactions received by the address. -/
def specReceivedSum (σ : TxStore) (bc : Blockchain) (address : String) : ℚ :=
  (((bc.chainTransactions σ).filter
      (fun tx => tx.recipient_address == address)).map Transaction.amount).sum

/-- The spec side of the §8 balance invariant: the sum of `amount + fee`
of chain transactions sent by the address. -/
def specSentSum (σ : TxStore) (bc : Blockchain) (address : String) : ℚ :=
  (((bc.chainTransactions σ).filter
      (fun tx => tx.sender_address == address)).map
    (fun tx => tx.amount + tx.fee)).sum

/-- Net effect of a single replayed transaction on an address. -/
def txContribution (address : String) (tx : Transaction) : ℚ :=
  (if tx.recipient_address = address then tx.amount else 0) -
  (if tx.sender_address = address then tx.amount + tx.fee else 0)

theorem balanceStep_eq (σ : TxStore) (a : String) (bal : ℚ) (r : TxRef) :
    balanceStep σ a bal r = bal + txContribution a (σ.get r) := by
  by_cases h1 : (σ.get r).recipient_address = a <;>
    by_cases h2 : (σ.get r).sender_address = a <;>
      simp [balanceStep, txContribution, h1, h2] <;> ring

theorem foldl_balanceStep (σ : TxStore) (a : String) :
    ∀ (rs : List TxRef) (bal : ℚ),
      rs.foldl (balanceStep σ a) bal
        = bal + ((rs.map σ.get).map (txContribution a)).sum := by
  intro rs
  induction rs with
  | nil => intro bal; simp
  | cons r rs ih =>
    intro bal
    rw [List.foldl_cons, ih, balanceStep_eq]
    simp
    ring

theorem foldl_blocks (σ : TxStore) (a : String) :
    ∀ (bs : List Block) (bal : ℚ),
      bs.foldl
        (fun balance block =>
          block.transactions.foldl (balanceStep σ a) balance) bal
        = bal + (bs.map
            (fun b => ((b.transactions.map σ.get).map (txContribution a)).sum)).sum := by
  intro bs
  induction bs with
  | nil => intro bal; simp
  | cons b bs ih =>
    intro bal
    rw [List.foldl_cons, ih, foldl_balanceStep]
    simp
    ring

theorem contribution_split (a : String) :
    ∀ l : List Transaction,
      (l.map (txContribution a)).sum
        = ((l.filter (fun tx => tx.recipient_address == a)).map
            Transaction.amount).sum
          - ((l.filter (fun tx => tx.sender_address == a)).map
            (fun tx => tx.amount + tx.fee)).sum := by
  intro l
  induction l with
  | nil => simp
  | cons t l ih =>
    by_cases h1 : t.recipient_address = a <;>
      by_cases h2 : t.sender_address = a <;>
        simp [List.filter_cons, h1, h2, txContribution, ih] <;> ring

/-- C3: `get_balance` equals the sum of received amounts minus the sum of
sent amounts-plus-fees over the chain's transactions, and does not depend
on the pending queue. -/
theorem claim_C3_balance_replay :
    ∀ (σ : TxStore) (bc : Blockchain) (address : String),
      Blockchain.get_balance σ bc address
        = specReceivedSum σ bc address - specSentSum σ bc address
      ∧ (∀ pend : List TxRef,
          Blockchain.get_balance σ
            { bc with pending_transactions := pend } address
          = Blockchain.get_balance σ bc address) := by
  intro σ bc a
  constructor
  · unfold Blockchain.get_balance specReceivedSum specSentSum
      Blockchain.chainTransactions
    rw [foldl_blocks, zero_add, ← contribution_split]
    simp only [List.map_flatten, List.sum_flatten, List.map_map, Function.comp]
    congr 1
    refine List.map_congr_left fun b _ => ?_
    simp [Function.comp, List.map_map]
  · intro pend
    rfl

/-! ## Sequential-admission machinery (C10) -/

/-- Shape of a successful `Blockchain.add_transaction`. -/
theorem Blockchain.add_ok (σ : TxStore) (bc : Blockchain) (r : TxRef)
    (hvalid : ((σ.get r).is_valid).1 = true)
    (hbal : ¬(bc.get_balance σ (σ.get r).sender_address <
      (σ.get r).amount + (σ.get r).fee))
    (hnodup : ¬(bc.transaction_pool.transactions.any
      (fun p => (σ.get p).transaction_id
        == (σ.get r).transaction_id) = true)) :
    Blockchain.add_transaction σ bc r
      = ({ bc with
            transaction_pool := { bc.transaction_pool with
              transactions := bc.transaction_pool.transactions ++ [r] },
            pending_transactions := bc.pending_transactions ++ [r] },
         .ok true) := by
  have h1 : ¬(((σ.get r).is_valid).1 = false) := by simp [hvalid]
  simp [Blockchain.add_transaction, TransactionPool.add_transaction, h1,
    hbal, hnodup]

/-- Submitting a list of transactions one after the other; `none` as soon
as one of them is rejected. -/
def addSeq (σ : TxStore) : Blockchain → List TxRef → Option Blockchain
  | bc, [] => some bc
  | bc, r :: rs =>
    match Blockchain.add_transaction σ bc r with
    | (bc', .ok _) => addSeq σ bc' rs
    | (_, .error _) => none

/-- C10: the balance check compares each transaction against the confirmed
(in-chain) balance only — pending debits are ignored.  Any sequence of
structurally valid transactions from one address, each individually within
the confirmed balance (with fresh, pairwise-distinct ids), is accepted
into the pending queue in full, regardless of the sequence's total. -/
theorem claim_C10_pending_debits_ignored (σ : TxStore) (bc : Blockchain)
    (a : String) (rs : List TxRef)
    (hvalid : ∀ r ∈ rs, ((σ.get r).is_valid).1 = true)
    (hsender : ∀ r ∈ rs, (σ.get r).sender_address = a)
    (hbal : ∀ r ∈ rs, (σ.get r).amount + (σ.get r).fee ≤ bc.get_balance σ a)
    (hfresh : ∀ r ∈ rs, ∀ p ∈ bc.transaction_pool.transactions,
      (σ.get p).transaction_id ≠ (σ.get r).transaction_id)
    (hids : (rs.map (fun r => (σ.get r).transaction_id)).Nodup) :
    ∃ bc', addSeq σ bc rs = some bc'
      ∧ bc'.pending_transactions = bc.pending_transactions ++ rs
      ∧ bc'.chain = bc.chain := by
  induction rs generalizing bc with
  | nil => exact ⟨bc, rfl, by simp, rfl⟩
  | cons r rs ih =>
    have hv := hvalid r (by simp)
    have hs := hsender r (by simp)
    have hb := hbal r (by simp)
    have hnb : ¬(bc.get_balance σ (σ.get r).sender_address <
        (σ.get r).amount + (σ.get r).fee) := by
      rw [hs]; exact not_lt.mpr hb
    have hnd : ¬(bc.transaction_pool.transactions.any
        (fun p => (σ.get p).transaction_id
          == (σ.get r).transaction_id) = true) := by
      intro hany
      obtain ⟨p, hp, he⟩ := List.any_eq_true.mp hany
      exact hfresh r (by simp) p hp (by simpa using he)
    have hadd := Blockchain.add_ok σ bc r hv hnb hnd
    rw [List.map_cons, List.nodup_cons] at hids
    obtain ⟨hidhead, hidtail⟩ := hids
    obtain ⟨bc2, hseq, hpend, hchain⟩ := ih
      ({ bc with
          transaction_pool := { bc.transaction_pool with
            transactions := bc.transaction_pool.transactions ++ [r] },
          pending_transactions := bc.pending_transactions ++ [r] })
      (fun r' hr' => hvalid r' (by simp [hr']))
      (fun r' hr' => hsender r' (by simp [hr']))
      (fun r' hr' => hbal r' (by simp [hr']))
      (by
        intro r' hr' p hp
        rcases List.mem_append.mp hp with hold | hnew
        · exact hfresh r' (by simp [hr']) p hold
        · have hpr : p = r := by simpa using hnew
          subst hpr
          intro heq
          exact hidhead (by
            rw [heq]
            exact List.mem_map.mpr ⟨r', hr', rfl⟩))
      hidtail
    refine ⟨bc2, ?_, ?_, ?_⟩
    · simp only [addSeq, hadd]
      exact hseq
    · rw [hpend]; simp
    · rw [hchain]

/-! ## Confirmation machinery (C2) -/

theorem TxStore.length_alloc (σ : TxStore) (tx : Transaction) :
    (σ.alloc tx).txs.length = σ.txs.length + 1 := by
  simp [TxStore.alloc]

/-- When the pool's pending ids are distinct, `confirmFind` locates
exactly the entry `r` whose id is searched for, marks it confirmed and
removes it. -/
theorem confirmFind_spec (σ : TxStore) (tid : Option String) :
    ∀ (P : List TxRef) (r : TxRef),
      r ∈ P → (σ.get r).transaction_id = tid →
      ((P.map fun p => (σ.get p).transaction_id)).Nodup →
      confirmFind σ tid P
        = some (σ.set r { σ.get r with status := "confirmed" },
            P.erase r, r) := by
  intro P
  induction P with
  | nil => intro r hr _ _; cases hr
  | cons p ps ih =>
    intro r hr hid hnd
    rw [List.map_cons, List.nodup_cons] at hnd
    obtain ⟨hnotin, hndtail⟩ := hnd
    by_cases hmatch : (σ.get p).transaction_id = tid
    · have hrp : r = p := by
        rcases List.mem_cons.mp hr with h | h
        · exact h
        · exact absurd (List.mem_map.mpr ⟨r, h, by rw [hid, ← hmatch]⟩) hnotin
      subst hrp
      simp [confirmFind, hmatch, List.erase_cons_head]
    · have hrr : r ∈ ps := by
        rcases List.mem_cons.mp hr with h | h
        · exact absurd (h ▸ hid) hmatch
        · exact h
      have hne : ¬((p == r) = true) := by
        simp only [beq_iff_eq]
        intro h
        exact hmatch (h ▸ hid)
      rw [List.erase_cons_tail hne]
      simp [confirmFind, hmatch, ih r hrr hid hndtail]

/-- Full specification of the confirmation loop of
`mine_pending_transactions`: every reference in `L` (all in the pool, with
distinct pool ids) gets its status set to `"confirmed"` in the heap,
leaves the pool's pending list and is appended to the confirmed list;
everything else is untouched. -/
theorem confirmLoop_spec :
    ∀ (L : List TxRef) (σ : TxStore) (pool : TransactionPool),
      (∀ r ∈ L, r ∈ pool.transactions) →
      ((pool.transactions.map fun p => (σ.get p).transaction_id)).Nodup →
      L.Nodup →
      (∀ p ∈ pool.transactions, p < σ.txs.length) →
      ((confirmLoop σ pool L).1.txs.length = σ.txs.length
       ∧ (∀ x, x ∉ L → (confirmLoop σ pool L).1.get x = σ.get x)
       ∧ (∀ x ∈ L, (confirmLoop σ pool L).1.get x
            = { σ.get x with status := "confirmed" })
       ∧ (confirmLoop σ pool L).2.transactions
            = pool.transactions.filter (fun p => decide (p ∉ L))
       ∧ (confirmLoop σ pool L).2.confirmed_transactions
            = pool.confirmed_transactions ++ L) := by
  intro L
  induction L with
  | nil =>
    intro σ pool _ _ _ _
    refine ⟨rfl, fun x _ => rfl,
      fun x hx => absurd hx (List.not_mem_nil x), ?_, by simp [confirmLoop]⟩
    simp [confirmLoop]
  | cons r rest ih =>
    intro σ pool hsub hnd hLnd hbound
    have hrP : r ∈ pool.transactions := hsub r (by simp)
    have hsubrest : ∀ x ∈ rest, x ∈ pool.transactions :=
      fun x hx => hsub x (by simp [hx])
    rw [List.nodup_cons] at hLnd
    obtain ⟨hrnotin, hrestnd⟩ := hLnd
    have hrlen : r < σ.txs.length := hbound r hrP
    have hPnd : pool.transactions.Nodup := List.Nodup.of_map _ hnd
    have hfind := confirmFind_spec σ ((σ.get r).transaction_id)
      pool.transactions r hrP rfl hnd
    have hstep : TransactionPool.confirm_transaction σ pool
        ((σ.get r).transaction_id)
        = (σ.set r { σ.get r with status := "confirmed" },
           { pool with
              transactions := pool.transactions.erase r,
              confirmed_transactions := pool.confirmed_transactions ++ [r] },
           true) := by
      simp [TransactionPool.confirm_transaction, hfind]
    have hloop : confirmLoop σ pool (r :: rest)
        = confirmLoop (σ.set r { σ.get r with status := "confirmed" })
            { pool with
               transactions := pool.transactions.erase r,
               confirmed_transactions := pool.confirmed_transactions ++ [r] }
            rest := by
      simp [confirmLoop, hstep]
    have hsub' : ∀ x ∈ rest, x ∈ pool.transactions.erase r := by
      intro x hx
      have hxr : x ≠ r := fun h => hrnotin (h ▸ hx)
      exact (List.mem_erase_of_ne hxr).mpr (hsubrest x hx)
    have herasene : ∀ p ∈ pool.transactions.erase r, p ≠ r := by
      intro p hp
      rw [List.Nodup.erase_eq_filter hPnd r] at hp
      have := List.of_mem_filter hp
      simpa using this
    have hids' : (((pool.transactions.erase r).map
        fun p => ((σ.set r { σ.get r with status := "confirmed" }).get p).transaction_id)).Nodup := by
      have hmapeq : ((pool.transactions.erase r).map
          fun p => ((σ.set r { σ.get r with status := "confirmed" }).get p).transaction_id)
          = ((pool.transactions.erase r).map
            fun p => (σ.get p).transaction_id) := by
        refine List.map_congr_left fun p hp => ?_
        rw [TxStore.get_set_ne σ r p _ fun h => (herasene p hp) h.symm]
      rw [hmapeq]
      exact List.Nodup.sublist
        (List.Sublist.map _ (List.erase_sublist r pool.transactions)) hnd
    have hbound' : ∀ p ∈ pool.transactions.erase r,
        p < (σ.set r { σ.get r with status := "confirmed" }).txs.length := by
      intro p hp
      rw [TxStore.length_set]
      exact hbound p (List.mem_of_mem_erase hp)
    obtain ⟨ihlen, ihout, ihin, ihpool, ihconf⟩ :=
      ih (σ.set r { σ.get r with status := "confirmed" })
        { pool with
           transactions := pool.transactions.erase r,
           confirmed_transactions := pool.confirmed_transactions ++ [r] }
        hsub' hids' hrestnd hbound'
    rw [hloop]
    refine ⟨?_, ?_, ?_, ?_, ?_⟩
    · rw [ihlen, TxStore.length_set]
    · intro x hx
      have hx' : x ≠ r ∧ x ∉ rest := by simpa [not_or] using hx
      rw [ihout x hx'.2, TxStore.get_set_ne σ r x _ fun h => hx'.1 h.symm]
    · intro x hx
      rcases List.mem_cons.mp hx with h | h
      · subst h
        rw [ihout x hrnotin, TxStore.get_set_self σ x _ hrlen]
      · have hxr : x ≠ r := fun he => hrnotin (he ▸ h)
        rw [ihin x h, TxStore.get_set_ne σ r x _ fun he => hxr he.symm]
    · rw [ihpool, List.Nodup.erase_eq_filter hPnd r, List.filter_filter]
      refine List.filter_congr fun x _ => ?_
      by_cases h1 : x = r <;> by_cases h2 : x ∈ rest <;>
        simp [h1, h2]
    · rw [ihconf]
      simp

/-- C2: full functional specification of `mine_pending_transactions`.
With an empty pending queue it returns `false` and changes nothing.
Otherwise (for any well-formed state: pending ⊆ pool, distinct pool ids,
distinct pending references, pool references in range) it returns `true`,
appends exactly one block at index `chain.length` whose transactions are
the pending queue in FIFO order followed by the reward reference, linked
to the previous head's hash; the reward transaction has sender
`"system"`, amount `mining_reward`, fee 0, pre-set id and signature and
status `"confirmed"`; every originally-pending transaction is confirmed
in the pool (status set, moved to the confirmed list) and the pending
queue is cleared. -/
theorem claim_C2_mine_pending_transactions_spec (H : BlockData → String)
    (σ : TxStore) (bc : Blockchain) (addr : String)
    (rewardTime blockTime : ℚ) (clockSeconds fuel : Nat)
    (σ' : TxStore) (bc' : Blockchain) (ret : Bool)
    (hsub : ∀ r ∈ bc.pending_transactions, r ∈ bc.transaction_pool.transactions)
    (hids : ((bc.transaction_pool.transactions.map
        fun p => (σ.get p).transaction_id)).Nodup)
    (hpnd : bc.pending_transactions.Nodup)
    (hbound : ∀ p ∈ bc.transaction_pool.transactions, p < σ.txs.length)
    (hres : Blockchain.mine_pending_transactions H σ bc addr rewardTime
        blockTime clockSeconds fuel = some (σ', bc', ret)) :
    (bc.pending_transactions = [] → σ' = σ ∧ bc' = bc ∧ ret = false) ∧
    (bc.pending_transactions ≠ [] →
      ret = true ∧
      bc'.pending_transactions = [] ∧
      (∃ mined latest,
        bc.chain.getLast? = some latest ∧
        bc'.chain = bc.chain ++ [mined] ∧
        mined.index = bc.chain.length ∧
        mined.previous_hash = latest.hash ∧
        mined.transactions = bc.pending_transactions ++ [σ.txs.length]) ∧
      σ'.get σ.txs.length
        = rewardTransaction bc.mining_reward addr rewardTime clockSeconds ∧
      (∀ r ∈ bc.pending_transactions,
        σ'.get r = { σ.get r with status := "confirmed" }) ∧
      bc'.transaction_pool.confirmed_transactions
        = bc.transaction_pool.confirmed_transactions
            ++ bc.pending_transactions ∧
      bc'.transaction_pool.transactions
        = bc.transaction_pool.transactions.filter
            (fun p => decide (p ∉ bc.pending_transactions))) := by
  by_cases hemp : bc.pending_transactions = []
  · refine ⟨fun _ => ?_, fun hne => absurd hemp hne⟩
    simp only [Blockchain.mine_pending_transactions, hemp, if_pos] at hres
    simp only [Option.some.injEq, Prod.mk.injEq] at hres
    exact ⟨hres.1.symm, hres.2.1.symm, hres.2.2.symm⟩
  · refine ⟨fun h => absurd h hemp, fun _ => ?_⟩
    rcases hlast : bc.chain.getLast? with _ | latest
    · simp [Blockchain.mine_pending_transactions, hemp, hlast] at hres
    · rcases hmine : Block.mine_block H
          (σ.alloc (rewardTransaction bc.mining_reward addr rewardTime
            clockSeconds))
          bc.difficulty fuel
          (Block.new H
            (σ.alloc (rewardTransaction bc.mining_reward addr rewardTime
              clockSeconds))
            bc.chain.length
            (bc.pending_transactions ++ [σ.txs.length]) latest.hash
            blockTime)
        with _ | mined
      · have hres' := hres
        simp only [Blockchain.mine_pending_transactions, hemp, if_neg,
          ite_false] at hres'
        rw [hlast] at hres'
        simp only [TxStore.alloc] at hres' hmine
        rw [hmine] at hres'
        cases hres'
      · have hres' := hres
        simp only [Blockchain.mine_pending_transactions, hemp, if_neg,
          ite_false] at hres'
        rw [hlast] at hres'
        simp only [TxStore.alloc] at hres' hmine
        rw [hmine] at hres'
        simp only [Option.some.injEq, Prod.mk.injEq] at hres'
        obtain ⟨hσ'eq, hbc'eq, hreteq⟩ := hres'
        -- the well-formedness hypotheses, transported to the heap with
        -- the reward transaction allocated
        have hids1 : ((bc.transaction_pool.transactions.map
            fun p => ((σ.alloc (rewardTransaction bc.mining_reward addr
              rewardTime clockSeconds)).get p).transaction_id)).Nodup := by
          have hmapeq : (bc.transaction_pool.transactions.map
              fun p => ((σ.alloc (rewardTransaction bc.mining_reward addr
                rewardTime clockSeconds)).get p).transaction_id)
              = (bc.transaction_pool.transactions.map
                fun p => (σ.get p).transaction_id) :=
            List.map_congr_left fun p hp => by
              rw [TxStore.get_alloc_lt σ _ p (hbound p hp)]
          rw [hmapeq]; exact hids
        have hbound1 : ∀ p ∈ bc.transaction_pool.transactions,
            p < (σ.alloc (rewardTransaction bc.mining_reward addr rewardTime
              clockSeconds)).txs.length := by
          intro p hp
          rw [TxStore.length_alloc]
          exact Nat.lt_succ_of_lt (hbound p hp)
        obtain ⟨cllen, clout, clin, clpool, clconf⟩ :=
          confirmLoop_spec bc.pending_transactions
            (σ.alloc (rewardTransaction bc.mining_reward addr rewardTime
              clockSeconds))
            bc.transaction_pool hsub hids1 hpnd hbound1
        simp only [TxStore.alloc] at cllen clout clin clpool clconf
        obtain ⟨hfi, hft, hftr, hfp⟩ :=
          Block.mine_block_fields _ _ _ _ _ _ hmine
        refine ⟨hreteq.symm, ?_, ⟨mined, latest, rfl, ?_, ?_, ?_, ?_⟩,
          ?_, ?_, ?_, ?_⟩
        · rw [← hbc'eq]
        · rw [← hbc'eq]
        · exact hfi.trans rfl
        · exact hfp.trans rfl
        · exact hftr.trans rfl
        · rw [← hσ'eq]
          have hnot : σ.txs.length ∉ bc.pending_transactions := by
            intro hmem
            exact absurd (hbound σ.txs.length (hsub _ hmem))
              (lt_irrefl σ.txs.length)
          rw [clout σ.txs.length hnot]
          have := TxStore.get_alloc_self σ
            (rewardTransaction bc.mining_reward addr rewardTime clockSeconds)
          simpa [TxStore.alloc] using this
        · intro r hr
          rw [← hσ'eq, clin r hr]
          have := TxStore.get_alloc_lt σ
            (rewardTransaction bc.mining_reward addr rewardTime clockSeconds)
            r (hbound r (hsub r hr))
          simp only [TxStore.alloc] at this
          rw [this]
        · rw [← hbc'eq]
          exact clconf
        · rw [← hbc'eq]
          exact clpool

/-- A freshly constructed blockchain (genesis only) over the digest
model `Hc`. -/
def bcW2 : Blockchain := Blockchain.init Hc emptyStore 0 2

/-- Witness for C2, at a concrete state with an empty pending queue:
mining returns `false` and changes nothing. -/
theorem claim_C2_witness :
    (bcW2.pending_transactions = [] →
       emptyStore = emptyStore ∧ bcW2 = bcW2 ∧ false = false) ∧
    (bcW2.pending_transactions ≠ [] →
       false = true ∧
       bcW2.pending_transactions = [] ∧
       (∃ mined latest,
         bcW2.chain.getLast? = some latest ∧
         bcW2.chain = bcW2.chain ++ [mined] ∧
         mined.index = bcW2.chain.length ∧
         mined.previous_hash = latest.hash ∧
         mined.transactions
           = bcW2.pending_transactions ++ [emptyStore.txs.length]) ∧
       emptyStore.get emptyStore.txs.length
         = rewardTransaction bcW2.mining_reward "miner" 0 0 ∧
       (∀ r ∈ bcW2.pending_transactions,
         emptyStore.get r
           = { emptyStore.get r with status := "confirmed" }) ∧
       bcW2.transaction_pool.confirmed_transactions
         = bcW2.transaction_pool.confirmed_transactions
             ++ bcW2.pending_transactions ∧
       bcW2.transaction_pool.transactions
         = bcW2.transaction_pool.transactions.filter
             (fun p => decide (p ∉ bcW2.pending_transactions))) :=
  claim_C2_mine_pending_transactions_spec Hc emptyStore bcW2 "miner" 0 0 0 0
    emptyStore bcW2 false (by decide) (by decide) (by decide) (by decide)
    (by decide)

/-! ## The mining / chain-validation interaction (C1) -/

/-- A valid signed pending transaction from `"alice"` to `"bob"`. -/
def txC1 : Transaction :=
  { sender_address := "alice", recipient_address := "bob", amount := 1,
    fee := 0, message := "", timestamp := 0, transaction_id := some "t1",
    signature := some "sig1", status := "pending" }

/-- Heap for the C1 evaluation: the single pending transaction. -/
def storeC1 : TxStore := ⟨[txC1]⟩

/-- Blockchain state for the C1 evaluation: genesis chain, difficulty 0
(a legal constructor argument, making the proof-of-work search trivial),
with the one transaction in the pending queue and the pool — exactly the
state `add_transaction` produces when it accepts a transaction. -/
def bcC1 : Blockchain :=
  { chain := [Blockchain.create_genesis_block Hc storeC1 0],
    difficulty := 0,
    pending_transactions := [0],
    mining_reward := 10,
    transaction_pool := { transactions := [0], confirmed_transactions := [] } }

/-- C1: the claim says `is_chain_valid` still returns `(true, _)` after
`mine_pending_transactions` has appended a block and confirmed its
transactions in the pool.  The code violates this: the block's hash is
computed while its transactions still have status `"pending"`, and the
subsequent pool confirmation mutates the status of those same shared
objects inside the just-appended block, so the recomputed hash no longer
matches the stored one.  At the concrete state `bcC1`, mining succeeds
(returns `true`) and `is_chain_valid` then returns `false` ("Invalid hash
at block 1"). -/
theorem claim_C1_mining_breaks_chain_validity :
    ((Blockchain.mine_pending_transactions Hc storeC1 bcC1 "miner" 0 0 0 0).map
      (fun out => (out.2.2,
        Blockchain.is_chain_valid Hc out.1 out.2.1)))
    = some (true, (false, "Invalid hash at block 1")) := by
  decide

/-- A signed spend of 6 from `"alice"` to `"bob"`. -/
def txSpendA : Transaction :=
  { sender_address := "alice", recipient_address := "bob", amount := 6,
    fee := 0, message := "", timestamp := 0, transaction_id := some "a1",
    signature := some "s", status := "pending" }

/-- A signed spend of 6 from `"alice"` to `"carol"`. -/
def txSpendB : Transaction :=
  { sender_address := "alice", recipient_address := "carol", amount := 6,
    fee := 0, message := "", timestamp := 0, transaction_id := some "b1",
    signature := some "s", status := "pending" }

/-- Heap for the C10 witness: a 10-credit and two spends of 6 each. -/
def storeW10 : TxStore := ⟨[txFund10, txSpendA, txSpendB]⟩

/-- Witness for C10: with confirmed balance 10, two spends of 6 each
(total 12 > 10) are both accepted into the pending queue. -/
theorem claim_C10_witness :
    (∃ bc', addSeq storeW10 bcW5 [1, 2] = some bc'
      ∧ bc'.pending_transactions = bcW5.pending_transactions ++ [1, 2]
      ∧ bc'.chain = bcW5.chain)
    ∧ bcW5.get_balance storeW10 "alice" < 12 :=
  ⟨claim_C10_pending_debits_ignored storeW10 bcW5 "alice" [1, 2]
      (by decide) (by decide) (by with_unfolding_all decide) (by decide)
      (by decide),
   by with_unfolding_all decide⟩

end BlockWallet
